import Mathlib

/-!
Verification development for `odspdfcrop.py`: a batch tool that, over a
directory of numbered PDF files forming one ordered page stream
(`doc.pdf, doc1.pdf, doc2.pdf, ...`),

* splits multi-page members into runs of single-page files while
  renumbering to preserve stream order (`PDFFixer.split`), and
* crops page margins using an external Ghostscript bounding-box oracle
  (`PDFFixer.crop` / `PDFFixer.crop_process` / `get_bbox`),

with a `/Cropped` document-metadata marker used as the idempotency flag.

The Python source is shallowly embedded below.  Pure string processing
(the regex `([\w_\d]+?)(\d+)\.pdf`, `str.split`, `str.rindex`,
`os.path.splitext`) is modelled directly on `List Char`; fallible code
paths (uncaught Python exceptions) are modelled with `Except`/`Option`;
Python floats are modelled as exact decimal fractions (an unreduced
integer numerator over a power-of-ten denominator), and Python's
`int(...)` truncation toward zero as truncating integer division.
Process-level concurrency is not modelled: the source joins every worker
of a stage before the sequential commit/rename phase runs, so each
stage's observable effect is the sequential function embedded here.
-/

/-- ASCII word character, Python 2 `\w` (no `re.UNICODE`): letters,
digits, underscore. -/
def isWordChar (c : Char) : Bool := c.isAlphanum || c == '_'

/-- Decimal value of a digit string, Python `int(...)` on the digits
captured by the regex. -/
def digitsToNat (ds : List Char) : Nat :=
  ds.foldl (fun n c => 10 * n + (c.toNat - '0'.toNat)) 0

/-- The literal `.pdf` that ends the filename pattern. -/
def pdfext : List Char := ['.', 'p', 'd', 'f']

/-!
## The filename regex

`pat = re.compile(r'([\w_\d]+?)(\d+)\.pdf')`, used via `re.search`.
Group 1 (`[\w_\d]+?`) is lazy: it grows one character at a time and at
each size the rest of the pattern is tried.  Group 2 (`\d+`) is greedy;
shrinking it can never help, because the following literal is `.` and
any character given back by the digit run is a digit, so the maximal
digit run followed by the literal check is exact.  `re.search` tries
successive start positions left to right.
-/

/-- Attempt `(\d+)\.pdf` at the head of `rest`: greedy digit run, then
the literal `.pdf` (the match is not anchored at the end of the
string). Returns the digit run. -/
def matchTail (rest : List Char) : Option (List Char) :=
  let ds := rest.takeWhile Char.isDigit
  if ds.isEmpty then none
  else if pdfext.isPrefixOf (rest.dropWhile Char.isDigit) then some ds
  else none

/-- Lazy expansion of group 1 from a fixed start: with `g1` the (nonempty)
word characters taken so far, try `(\d+)\.pdf` on the rest; on failure
absorb one more word character into group 1 and retry. -/
def matchG1Loop (g1 : List Char) : List Char → Option (List Char × Nat)
  | [] => none
  | c :: rest =>
    match matchTail (c :: rest) with
    | some ds => some (g1, digitsToNat ds)
    | none => if isWordChar c then matchG1Loop (g1 ++ [c]) rest else none

/-- Try the whole pattern at one start position: group 1 must begin with
a word character. -/
def matchStart (s : List Char) : Option (List Char × Nat) :=
  match s with
  | [] => none
  | c :: rest => if isWordChar c then matchG1Loop [c] rest else none

/-- `re.search(pat, s)`: leftmost start position at which the pattern
matches, returning `(group 1, int(group 2))`. -/
def reSearch : List Char → Option (List Char × Nat)
  | [] => none
  | c :: t =>
    match matchStart (c :: t) with
    | some r => some r
    | none => reSearch t

/-- `os.path.splitext(name)[0]` for a bare filename (no directory
separators): split at the last dot, unless every character before that
dot is itself a dot (leading-dot files keep their name whole). -/
def splitextRoot (name : String) : String :=
  let r := name.toList.reverse
  match (r.span (fun c => c ≠ '.')).2 with
  | [] => name
  | _ :: pre_r =>
    if pre_r.any (fun c => c ≠ '.') then String.mk pre_r.reverse else name

/-- Trailing number of a filename per `get_filedigit`: `int(group 2)` of
the regex search, or `0` when the pattern does not occur. -/
def filedigitOf (name : String) : Nat :=
  match reSearch name.toList with
  | some (_, d) => d
  | none => 0

/-- Stem of a filename per `get_stems`: group 1 of the regex search, or
the name minus its extension when the pattern does not occur. -/
def stemOf (name : String) : String :=
  match reSearch name.toList with
  | some (g1, _) => String.mk g1
  | none => splitextRoot name

/-- One entry of `PDFFixer.file_info`: a filename together with its page
count as read by the metadata catalog. -/
structure FileRec where
  name : String
  pages : Nat
deriving DecidableEq, Repr

/-- `get_filedigit(fdict)`: sort key used to order a stem's members. -/
def get_filedigit (f : FileRec) : Nat := filedigitOf f.name

/-- `get_stems(files)`: the set of stems of a list of filenames (modelled
as a duplicate-free list; Python set iteration order is unspecified and
the per-stem results below do not depend on it). -/
def get_stems (files : List String) : List String :=
  (files.map stemOf).dedup

/-!
## Split stage (`PDFFixer.split`)

Per stem the source builds the ordered member list, skips the stem when
`sum(pages) == len(members)`, and otherwise walks the members sorted by
`get_filedigit` with a boolean `start_splitting` (initially false) and a
counter `filedigit` (initially 0): members before the first multi-page
member are passed through (`filedigit += 1`); from that member on, every
page of every member is written to a staged single-page file named by
the current counter value, and the counter advances once per page.
Every target name written is also removed from the in-memory cropped
list.  `sorted(..., key=get_filedigit)` is a stable sort, modelled by
stable insertion sort (the catalog order being sorted is itself
scheduling-dependent in the source).
-/

/-- Stable insertion of a member into a digit-sorted list: the new
element goes before the first member with a strictly greater key and
after equal keys seen so far, matching Python's stable `sorted`. -/
def insertByDigit (f : FileRec) : List FileRec → List FileRec
  | [] => [f]
  | g :: t =>
    if get_filedigit f ≤ get_filedigit g then f :: g :: t
    else g :: insertByDigit f t

/-- `sorted(stem_info[stem], key=get_filedigit)`. -/
def sortByDigit : List FileRec → List FileRec
  | [] => []
  | f :: t => insertByDigit f (sortByDigit t)

/-- The walk of `PDFFixer.split` over one stem's sorted members.  Each
plan entry `(targetOrdinal, sourceName, pageIndex)` records one staged
single-page write. -/
def split_walk : Bool → Nat → List FileRec → List (Nat × String × Nat)
  | _, _, [] => []
  | splitting, filedigit, f :: rest =>
    let sp := splitting || decide (1 < f.pages)
    if sp then
      ((List.range f.pages).map (fun p => (filedigit + p, f.name, p)))
        ++ split_walk sp (filedigit + f.pages) rest
    else split_walk sp (filedigit + 1) rest

/-- The split plan of one stem-group: empty when the page-count sum
equals the member count, else the walk over the sorted members. -/
def splitPlanStem (g : List FileRec) : List (Nat × String × Nat) :=
  if (g.map (fun f => f.pages)).sum = g.length then []
  else split_walk false 0 (sortByDigit g)

/-- Final filename for a target ordinal: ordinal 0 is the bare
`stem.pdf`, ordinal `n > 0` is `stem<n>.pdf` (the staged name carries a
`_SPLIT` suffix that the commit stage strips). -/
def targetName (stem : String) (n : Nat) : String :=
  if n = 0 then stem ++ ".pdf" else stem ++ toString n ++ ".pdf"

/-- `re.match(r'%s\d+\.pdf' % stem, x)`: `x` starts with the stem, then
one or more digits, then `.pdf` (anchored at the start only). -/
def matchStemNum (stem x : String) : Bool :=
  stem.toList.isPrefixOf x.toList &&
    (let r := x.toList.drop stem.toList.length
     !(r.takeWhile Char.isDigit).isEmpty &&
       pdfext.isPrefixOf (r.dropWhile Char.isDigit))

/-- `stem_matches`: the bare `stem.pdf` plus every directory file
matching `stem<digits>.pdf`. -/
def stem_matches (pdffiles : List String) (stem : String) : List String :=
  (stem ++ ".pdf") :: pdffiles.filter (fun x => matchStemNum stem x)

/-- `stem_info[stem]`: the catalog records whose name is in
`stem_matches`. -/
def groupFor (file_info : List FileRec) (pdffiles : List String)
    (stem : String) : List FileRec :=
  file_info.filter (fun x => (stem_matches pdffiles stem).contains x.name)

/-- All final target names staged by the split stage, stem by stem. -/
def splitTargets (pdffiles : List String) (file_info : List FileRec) :
    List String :=
  (get_stems pdffiles).foldr
    (fun stem acc =>
      (splitPlanStem (groupFor file_info pdffiles stem)).map
        (fun e => targetName stem e.1) ++ acc)
    []

/-- The cropped-marker list after the split stage: the source removes
each staged target name from `self.cropped` as it writes it
(`self.cropped.remove(rname)` removes the first occurrence). -/
def splitCropped (pdffiles : List String) (file_info : List FileRec)
    (cropped : List String) : List String :=
  (splitTargets pdffiles file_info).foldl (fun c t => c.erase t) cropped

/-- `x.endswith('.pdf')`, modelled on the character list. -/
def endsPdf (x : String) : Bool := pdfext.isSuffixOf x.toList

/-- The crop planner: every directory entry ending in `.pdf` whose name
is not in the cropped list (`x not in self.cropped and
x.endswith('.pdf')`). -/
def cropSelect (listing : List String) (cropped : List String) :
    List String :=
  listing.filter (fun x => !cropped.contains x && endsPdf x)

/-- Spec-side description of the cascade: from a point in the stream,
re-emit every member as one file per page, with consecutive target
ordinals continuing the counter, in stream order. -/
def emitAll : Nat → List FileRec → List (Nat × String × Nat)
  | _, [] => []
  | c, f :: fs =>
    ((List.range f.pages).map (fun p => (c + p, f.name, p)))
      ++ emitAll (c + f.pages) fs

/-!
## Crop stage (`get_bbox`, `PDFFixer.crop_process`, `write_page`)

`get_bbox` runs Ghostscript, takes everything after the *last*
occurrence of the label `HiResBoundingBox:` (`s.rindex` — an uncaught
`ValueError` when the label is absent), strips and whitespace-splits it,
truncates to the first 4 tokens when more are present (printing the
excess as an error), and converts with `map(float, ...)` — a
`ValueError` there is caught, printed, and yields an empty bounds list.
`crop_process` then skips the file when the bounds are empty or their
sum truncates to integer zero, and otherwise unpacks exactly four
values (an uncaught `ValueError` on any other length), rewrites page
0's media-box corners, and stages a single-page file carrying the
`/Cropped: True` metadata via `write_page(..., crop=True)`.

Float tokens are modelled as exact decimal fractions `Frac` (integer
numerator over a power-of-ten denominator, kept unreduced); `int(...)`
on the sum is numerator-over-denominator truncating division.  Printed
diagnostics are modelled as a returned `Report` list; uncaught Python
exceptions as `Except.error`.
-/

/-- Exact decimal fraction standing in for a parsed float token:
`num / den` with `den` a positive power of ten. -/
structure Frac where
  num : Int
  den : Int
deriving DecidableEq, Repr

/-- Addition of two decimal fractions (no normalisation). -/
def fracAdd (a b : Frac) : Frac :=
  ⟨a.num * b.den + b.num * a.den, a.den * b.den⟩

/-- `sum(bounds)`. -/
def fracSum (l : List Frac) : Frac := l.foldl fracAdd ⟨0, 1⟩

/-- Python `int(...)` on the exact value: truncation toward zero. -/
def fracTrunc (a : Frac) : Int := Int.tdiv a.num a.den

/-- Python `float(token)` on the decimal forms Ghostscript emits:
optional sign, an integer part and/or a dotted fraction part, nothing
else (scientific notation etc. is outside the modelled oracle
grammar). -/
def parseFloat (s : String) : Option Frac :=
  let cs := s.toList
  let sgncs : Int × List Char :=
    match cs with
    | '+' :: t => (1, t)
    | '-' :: t => (-1, t)
    | _ => (1, cs)
  let ip := sgncs.2.takeWhile Char.isDigit
  match sgncs.2.dropWhile Char.isDigit with
  | [] => if ip.isEmpty then none else some ⟨sgncs.1 * (digitsToNat ip : Int), 1⟩
  | '.' :: fp =>
    if fp.all Char.isDigit && !(ip.isEmpty && fp.isEmpty) then
      some ⟨sgncs.1 * ((digitsToNat ip : Int) * (10 : Int) ^ fp.length
              + (digitsToNat fp : Int)), (10 : Int) ^ fp.length⟩
    else none
  | _ => none

/-- `map(float, str_bounds)`: Python 2 `map` is eager, so one bad token
raises for the whole list. -/
def parseFloats : List String → Option (List Frac)
  | [] => some []
  | t :: ts =>
    match parseFloat t, parseFloats ts with
    | some v, some vs => some (v :: vs)
    | _, _ => none

/-- Diagnostics printed by `get_bbox`. -/
inductive Report
  /-- The `ERROR for %s: ...` print of the tokens beyond the fourth. -/
  | excess (extra : List String)
  /-- The `Skipping %s: Bad bounding box` print on a float parse
  failure. -/
  | badbox
deriving DecidableEq, Repr

/-- Lines 124–132 of the source: truncate to 4 tokens (reporting any
excess), then convert; a conversion failure is reported and yields an
empty bounds list. -/
def parse_bounds (str_bounds : List String) : List Frac × List Report :=
  let trimmed := if 4 < str_bounds.length then str_bounds.take 4 else str_bounds
  let reps : List Report :=
    if 4 < str_bounds.length then [Report.excess (str_bounds.drop 4)] else []
  match parseFloats trimmed with
  | some bs => (bs, reps)
  | none => ([], reps ++ [Report.badbox])

/-- Python whitespace for `str.strip()` / `str.split()`. -/
def isSpace (c : Char) : Bool :=
  c == ' ' || c == '\t' || c == '\n' || c == '\r' || c == '\x0b' || c == '\x0c'

/-- `str.strip()`. -/
def stripWS (cs : List Char) : List Char :=
  ((cs.dropWhile isSpace).reverse.dropWhile isSpace).reverse

/-- Accumulator pass for `str.split()` (no argument: runs of whitespace
separate tokens, no empty tokens). -/
def splitWSAux : List Char → List Char → List String
  | [], cur => if cur.isEmpty then [] else [String.mk cur.reverse]
  | c :: t, cur =>
    if isSpace c then
      if cur.isEmpty then splitWSAux t [] else String.mk cur.reverse :: splitWSAux t []
    else splitWSAux t (c :: cur)

/-- `str.split()`. -/
def splitWS (cs : List Char) : List String := splitWSAux cs []

/-- The 17-character label Ghostscript prints before the bounds. -/
def labelChars : List Char := "HiResBoundingBox:".toList

/-- `s.rindex(sub)`: highest start index of an occurrence, if any. -/
def rindexOf (s pat : List Char) : Option Nat :=
  ((List.range (s.length + 1)).filter (fun i => pat.isPrefixOf (s.drop i))).getLast?

/-- `get_bbox`: everything after the last label occurrence is stripped,
split and parsed; a missing label is the uncaught `s.rindex`
`ValueError`. -/
def get_bbox (output : String) : Except String (List Frac × List Report) :=
  match rindexOf output.toList labelChars with
  | none => Except.error "substring not found"
  | some i =>
    Except.ok (parse_bounds (splitWS (stripWS (output.toList.drop (i + 17)))))

deriving instance DecidableEq for Except

/-- A PDF page: opaque content plus the four media-box corner points the
crop stage rewrites. -/
structure PDFPage where
  content : Nat
  lowerLeft : Frac × Frac
  lowerRight : Frac × Frac
  upperLeft : Frac × Frac
  upperRight : Frac × Frac
deriving DecidableEq, Repr

/-- A PDF document: its pages and whether its document metadata carries
the `/Cropped: True` marker. -/
structure PDFDoc where
  pages : List PDFPage
  croppedMeta : Bool
deriving DecidableEq, Repr

/-- `write_page(filename, obj, pagenum, crop)`: a fresh one-page
document holding page `pagenum` of `obj`, stamped with the cropped
marker exactly when `crop` is set; `None` models the `getPage` failure
on an out-of-range index. -/
def write_page (obj : PDFDoc) (pagenum : Nat) (crop : Bool) : Option PDFDoc :=
  match obj.pages[pagenum]? with
  | some pg => some { pages := [pg], croppedMeta := crop }
  | none => none

/-- `PDFFixer.crop_process` on one selected file, given the oracle's
textual output: skip (no staged write, no marker) on empty bounds or a
zero-truncating sum; otherwise unpack exactly four values, rewrite page
0's corners and stage the one-page marked document.  `Except.error`
marks the uncaught exceptions of the worker. -/
def crop_process (obj : PDFDoc) (output : String) :
    Except String (Option PDFDoc) :=
  match get_bbox output with
  | Except.error e => Except.error e
  | Except.ok (bounds, _) =>
    if bounds.isEmpty || fracTrunc (fracSum bounds) == 0 then Except.ok none
    else
      match bounds with
      | [lx, ly, ux, uy] =>
        match obj.pages with
        | [] => Except.error "page index out of range"
        | pg :: rest =>
          let pg2 := { pg with
            lowerLeft := (lx, ly), lowerRight := (ux, ly),
            upperLeft := (lx, uy), upperRight := (ux, uy) }
          match write_page { obj with pages := pg2 :: rest } 0 true with
          | some staged => Except.ok (some staged)
          | none => Except.error "page index out of range"
      | _ => Except.error "unpack bounds"

/-- A fixed page used by concrete instances below. -/
def samplePage (k : Nat) : PDFPage :=
  ⟨k, (⟨0, 1⟩, ⟨0, 1⟩), (⟨0, 1⟩, ⟨0, 1⟩), (⟨0, 1⟩, ⟨0, 1⟩), (⟨0, 1⟩, ⟨0, 1⟩)⟩

/-- A concrete two-page document used by concrete instances below. -/
def sampleDoc2 : PDFDoc := ⟨[samplePage 0, samplePage 7], false⟩

/-- The staged crop output of `sampleDoc2` under the bounding box
`1 2 3 4`: the first page with its corners rewritten, marked cropped. -/
def stagedSample : PDFDoc :=
  ⟨[⟨0, (⟨1, 1⟩, ⟨2, 1⟩), (⟨3, 1⟩, ⟨2, 1⟩), (⟨1, 1⟩, ⟨4, 1⟩), (⟨3, 1⟩, ⟨4, 1⟩)⟩], true⟩

/-!
## Helper lemmas on the split walk
-/

/-- A list of single-page records has page-count sum equal to its
length. -/
theorem pagesum_of_ones (l : List FileRec) (h : ∀ f ∈ l, f.pages = 1) :
    (l.map (fun f => f.pages)).sum = l.length := by
  induction l with
  | nil => rfl
  | cons f t ih =>
    have hf : f.pages = 1 := h f (List.mem_cons_self f t)
    have ht := ih (fun g hg => h g (List.mem_cons_of_mem f hg))
    simp [hf, ht, Nat.add_comm]

/-- Once the splitting flag is set, the walk emits one entry per page of
every remaining member, with consecutive ordinals, in order. -/
theorem walk_true (l : List FileRec) : ∀ c, split_walk true c l = emitAll c l := by
  induction l with
  | nil => intro c; rfl
  | cons f t ih => intro c; simp [split_walk, emitAll, ih]

/-- Members before the trigger are passed through: the walk skips them
and advances the counter once per member. -/
theorem walk_skip (pre : List FileRec) (h : ∀ f ∈ pre, f.pages ≤ 1) :
    ∀ (c : Nat) (rest : List FileRec),
      split_walk false c (pre ++ rest) = split_walk false (c + pre.length) rest := by
  induction pre with
  | nil => intro c rest; rfl
  | cons f t ih =>
    intro c rest
    have hf : ¬ 1 < f.pages := by
      have := h f (List.mem_cons_self f t)
      omega
    have ht := ih (fun g hg => h g (List.mem_cons_of_mem f hg))
    have hlen : c + 1 + t.length = c + (f :: t).length := by
      simp [Nat.add_assoc, Nat.add_comm 1 t.length]
    calc split_walk false c ((f :: t) ++ rest)
        = split_walk false (c + 1) (t ++ rest) := by
          simp [split_walk, hf]
      _ = split_walk false (c + 1 + t.length) rest := ht (c + 1) rest
      _ = split_walk false (c + (f :: t).length) rest := by rw [hlen]

/-- The walk over `pre ++ m :: post` with every member of `pre`
single-page (or empty) and `m` multi-page: everything from `m` on is
re-emitted one file per page with consecutive ordinals continuing at
`pre.length`. -/
theorem walk_trigger (pre : List FileRec) (m : FileRec) (post : List FileRec)
    (hpre : ∀ f ∈ pre, f.pages ≤ 1) (hm : 1 < m.pages) :
    split_walk false 0 (pre ++ m :: post) = emitAll pre.length (m :: post) := by
  rw [walk_skip pre hpre 0 (m :: post)]
  simp only [Nat.zero_add]
  simp [split_walk, hm, emitAll, walk_true]

/-!
## Concrete behaviour checks of the embedding
-/

example : parseFloat "12.5" = some ⟨125, 10⟩ := by decide
example : parseFloat "-3" = some ⟨-3, 1⟩ := by decide
example : parseFloat "x" = none := by decide
example : splitWS "  1  2.5 ".toList = ["1", "2.5"] := by decide
example : get_bbox "junk HiResBoundingBox: 1 2 3 4" =
    Except.ok ([⟨1, 1⟩, ⟨2, 1⟩, ⟨3, 1⟩, ⟨4, 1⟩], []) := by decide
example : crop_process ⟨[samplePage 0], false⟩ "HiResBoundingBox: 0.0 0.0 0.0 0.0" =
    Except.ok none := by decide
example : crop_process ⟨[samplePage 0], false⟩ "no label" =
    Except.error "substring not found" := by decide
example : crop_process ⟨[samplePage 0], false⟩ "HiResBoundingBox: 1 2" =
    Except.error "unpack bounds" := by decide

example : splitPlanStem [⟨"a.pdf", 1⟩, ⟨"a1.pdf", 3⟩, ⟨"a2.pdf", 1⟩] =
    [(1, "a1.pdf", 0), (2, "a1.pdf", 1), (3, "a1.pdf", 2), (4, "a2.pdf", 0)] := by
  decide
example : splitPlanStem [⟨"a3.pdf", 2⟩] = [(0, "a3.pdf", 0), (1, "a3.pdf", 1)] := by
  decide
example : splitPlanStem [⟨"b.pdf", 1⟩, ⟨"b1.pdf", 1⟩] = [] := by decide
example : splitTargets ["a3.pdf"] [⟨"a3.pdf", 2⟩] = ["a.pdf", "a1.pdf"] := by decide
example : splitTargets ["a.pdf", "a1.pdf"] [⟨"a.pdf", 2⟩, ⟨"a1.pdf", 1⟩] =
    ["a.pdf", "a1.pdf", "a2.pdf"] := by decide
example : splitCropped ["a.pdf", "a1.pdf"] [⟨"a.pdf", 2⟩, ⟨"a1.pdf", 1⟩] ["a1.pdf"] = [] := by
  decide
example : cropSelect ["a.pdf", "a1.pdf", "x.txt"] ["a.pdf"] = ["a1.pdf"] := by decide

example : filedigitOf "one12.pdf" = 12 := by decide
example : stemOf "one12.pdf" = "one" := by decide
example : stemOf "one.pdf" = "one" := by decide
example : filedigitOf "one.pdf" = 0 := by decide
example : stemOf "a1b2.pdf" = "a1b" := by decide
example : filedigitOf "a1b2.pdf" = 2 := by decide
example : stemOf "a1b.pdf" = "a1b" := by decide
example : filedigitOf "a1b.pdf" = 0 := by decide
example : stemOf "12.pdf" = "1" := by decide
example : filedigitOf "12.pdf" = 2 := by decide
example : stemOf ".pdf" = ".pdf" := by decide
example : get_stems ["one.pdf", "one1.pdf", "two.pdf"] = ["one", "two"] := by decide

/-!
## Claims
-/

/-- C4: a stem-group in which every member has exactly one page has
page-count sum equal to member count, so the split stage takes no action
for it — the plan is empty — and this holds for any permutation of the
member order. -/
theorem claim_c4_singlepage_group_noop (g : List FileRec)
    (h : ∀ f ∈ g, f.pages = 1) :
    splitPlanStem g = [] ∧ ∀ g2, g.Perm g2 → splitPlanStem g2 = [] := by
  constructor
  · simp [splitPlanStem, pagesum_of_ones g h]
  · intro g2 hperm
    have h2 : ∀ f ∈ g2, f.pages = 1 := fun f hf => h f (hperm.mem_iff.mpr hf)
    simp [splitPlanStem, pagesum_of_ones g2 h2]

/-- Witness for C4 at a concrete two-member group. -/
theorem claim_c4_witness :
    splitPlanStem [⟨"b.pdf", 1⟩, ⟨"b1.pdf", 1⟩] = [] :=
  (claim_c4_singlepage_group_noop [⟨"b.pdf", 1⟩, ⟨"b1.pdf", 1⟩] (by decide)).1

/-- C2: once the walk reaches the first member with more than one page,
that member and every subsequent member — regardless of its own page
count — is re-emitted one output file per page with consecutive output
ordinals continuing the counter, preserving the total stream order
(`emitAll`). -/
theorem claim_c2_trigger_cascade (pre : List FileRec) (m : FileRec)
    (post : List FileRec) (hpre : ∀ f ∈ pre, f.pages ≤ 1)
    (hm : 1 < m.pages) :
    split_walk false 0 (pre ++ m :: post) = emitAll pre.length (m :: post) :=
  walk_trigger pre m post hpre hm

/-- Witness for C2 at the group `[a.pdf(1), a1.pdf(3), a2.pdf(1)]`:
`a.pdf` is passed through, the three pages of `a1.pdf` take ordinals
1–3, and the page of the original `a2.pdf` takes target ordinal 4,
i.e. final name `a4.pdf`. -/
theorem claim_c2_witness :
    split_walk false 0 [⟨"a.pdf", 1⟩, ⟨"a1.pdf", 3⟩, ⟨"a2.pdf", 1⟩] =
        emitAll 1 [⟨"a1.pdf", 3⟩, ⟨"a2.pdf", 1⟩] ∧
      splitPlanStem [⟨"a.pdf", 1⟩, ⟨"a1.pdf", 3⟩, ⟨"a2.pdf", 1⟩] =
        [(1, "a1.pdf", 0), (2, "a1.pdf", 1), (3, "a1.pdf", 2), (4, "a2.pdf", 0)] ∧
      (splitPlanStem [⟨"a.pdf", 1⟩, ⟨"a1.pdf", 3⟩, ⟨"a2.pdf", 1⟩]).map
          (fun e => targetName "a" e.1) =
        ["a1.pdf", "a2.pdf", "a3.pdf", "a4.pdf"] :=
  ⟨claim_c2_trigger_cascade [⟨"a.pdf", 1⟩] ⟨"a1.pdf", 3⟩ [⟨"a2.pdf", 1⟩]
      (by decide) (by decide),
    by decide, by decide⟩

/-- C3 counterexample: for the stem-group whose only member is
`a3.pdf` (2 pages), the first member's ordinal is 3 but the plan's
first target ordinal is 0 — the source initialises `filedigit = 0`, not
to the first member's ordinal — so the staged targets are `a.pdf` and
`a1.pdf`, not `a3.pdf` and `a4.pdf`. -/
theorem claim_c3_counterexample :
    get_filedigit ⟨"a3.pdf", 2⟩ = 3 ∧
      splitPlanStem [⟨"a3.pdf", 2⟩] = [(0, "a3.pdf", 0), (1, "a3.pdf", 1)] ∧
      (splitPlanStem [⟨"a3.pdf", 2⟩]).head? = some (0, "a3.pdf", 0) ∧
      splitTargets ["a3.pdf"] [⟨"a3.pdf", 2⟩] = ["a.pdf", "a1.pdf"] ∧
      (0 : Nat) ≠ 3 := by
  refine ⟨by decide, by decide, by decide, by decide, by decide⟩

/-- C3 amended: the output ordinal counter starts at 0, not at the
first member's ordinal; each member passed through before the trigger
advances it by one, so the first target ordinal the plan assigns equals
the number of members preceding the first multi-page member. -/
theorem claim_c3_counter_starts_at_zero (pre : List FileRec) (m : FileRec)
    (post : List FileRec) (hpre : ∀ f ∈ pre, f.pages ≤ 1)
    (hm : 1 < m.pages) :
    (split_walk false 0 (pre ++ m :: post)).head? =
      some (pre.length, m.name, 0) := by
  rw [walk_trigger pre m post hpre hm]
  obtain ⟨k, hk⟩ : ∃ k, m.pages = k + 1 := ⟨m.pages - 1, by omega⟩
  simp [emitAll, hk, List.range_eq_range', List.range'_succ]

/-- Witness for the amended C3 at a group whose members are `b3.pdf`
and `b4.pdf`: one member is skipped, so the first target ordinal is 1
(final name `b1.pdf`), not 4. -/
theorem claim_c3_witness :
    (split_walk false 0 [⟨"b3.pdf", 1⟩, ⟨"b4.pdf", 2⟩]).head? =
      some (1, "b4.pdf", 0) :=
  claim_c3_counter_starts_at_zero [⟨"b3.pdf", 1⟩] ⟨"b4.pdf", 2⟩ []
    (by decide) (by decide)

/-- C7: when the oracle yields no bounding box (empty bounds) or a
degenerate one (the four values' sum truncates to integer zero), the
crop worker leaves the file untouched and unmarked — it stages no
output and sets no cropped marker (`Except.ok none`), rather than
raising an error that would abort the worker. -/
theorem claim_c7_degenerate_noop (obj : PDFDoc) (out : String)
    (bounds : List Frac) (reps : List Report)
    (h : get_bbox out = Except.ok (bounds, reps))
    (hd : bounds = [] ∨ fracTrunc (fracSum bounds) = 0) :
    crop_process obj out = Except.ok none := by
  have hc : (bounds.isEmpty || fracTrunc (fracSum bounds) == 0) = true := by
    rcases hd with h1 | h1 <;> simp [h1]
  simp [crop_process, h, hc]

/-- Witness for C7: a zero bounding box yields a skip on a concrete
single-page document. -/
theorem claim_c7_witness :
    crop_process ⟨[samplePage 0], false⟩ "HiResBoundingBox: 0.0 0.0 0.0 0.0" =
      Except.ok none :=
  claim_c7_degenerate_noop ⟨[samplePage 0], false⟩
    "HiResBoundingBox: 0.0 0.0 0.0 0.0"
    [⟨0, 10⟩, ⟨0, 10⟩, ⟨0, 10⟩, ⟨0, 10⟩] [] (by decide) (Or.inr (by decide))

/-- C9 (implicit): a selected file with more than one page — reachable
when the split stage is disabled by `nosplit` — has its committed
cropped output built from page index 0 only: the staged document has
exactly one page, whose content is the original's first page, so every
later page is silently dropped. -/
theorem claim_c9_crop_drops_pages (obj : PDFDoc) (out : String)
    (staged : PDFDoc) (hp : 1 < obj.pages.length)
    (h : crop_process obj out = Except.ok (some staged)) :
    staged.pages.length = 1 ∧
      staged.pages.map (fun p => p.content) =
        (obj.pages.map (fun p => p.content)).take 1 ∧
      staged.croppedMeta = true := by
  unfold crop_process at h
  cases hg : get_bbox out with
  | error e => rw [hg] at h; simp at h
  | ok br =>
    obtain ⟨bounds, reps⟩ := br
    rw [hg] at h
    by_cases hc : (bounds.isEmpty || fracTrunc (fracSum bounds) == 0) = true
    · simp [hc] at h
    · simp only [hc] at h
      match bounds, h with
      | [lx, ly, ux, uy], h =>
        cases hpg : obj.pages with
        | nil => rw [hpg] at h; simp at h
        | cons pg rest =>
          rw [hpg] at h
          simp [write_page] at h
          subst h
          simp [hpg]

/-- Witness for C9: a concrete two-page document whose staged crop
output keeps only the first page's content and bears the marker. -/
theorem claim_c9_witness :
    stagedSample.pages.length = 1 ∧
      stagedSample.pages.map (fun p => p.content) =
        (sampleDoc2.pages.map (fun p => p.content)).take 1 ∧
      stagedSample.croppedMeta = true :=
  claim_c9_crop_drops_pages sampleDoc2 "HiResBoundingBox: 1 2 3 4"
    stagedSample (by decide) (by decide)

/-- C10 (implicit): concrete oracle outputs on which the crop worker
raises instead of skipping — an output without the
`HiResBoundingBox:` label (the uncaught `str.rindex` lookup failure),
and an output whose label is followed by fewer than four numeric tokens
with nonzero sum (the uncaught failure unpacking the bounds into four
values); no label-presence or minimum-token-count check guards either
path. -/
theorem claim_c10_unguarded_errors :
    crop_process ⟨[samplePage 0], false⟩ "gs: no bounding box line here" =
        Except.error "substring not found" ∧
      crop_process ⟨[samplePage 0], false⟩ "HiResBoundingBox: 1 2" =
        Except.error "unpack bounds" := by
  refine ⟨by decide, by decide⟩

/-- C8: with more than 4 tokens after the label, the excess is reported
as an error annotation and only the first 4 are converted; whenever
converting the (at most four) used tokens to numeric type fails, the
failure is reported and the result is an empty bounds list — the file
is treated as having no bounding box. -/
theorem claim_c8_token_handling (ts : List String) :
    (4 < ts.length →
      parse_bounds ts =
        match parseFloats (ts.take 4) with
        | some bs => (bs, [Report.excess (ts.drop 4)])
        | none => ([], [Report.excess (ts.drop 4), Report.badbox])) ∧
    (parseFloats (ts.take 4) = none →
      (parse_bounds ts).1 = [] ∧ Report.badbox ∈ (parse_bounds ts).2) := by
  constructor
  · intro h4
    simp only [parse_bounds, if_pos h4]
    cases parseFloats (ts.take 4) <;> rfl
  · intro hpf
    by_cases h4 : 4 < ts.length
    · simp [parse_bounds, if_pos h4, hpf]
    · have hts : ts.take 4 = ts := List.take_of_length_le (by omega)
      rw [hts] at hpf
      simp [parse_bounds, if_neg h4, hpf]

/-- Witness for C8: five tokens report the fifth and use the first
four; a non-numeric token among the used ones yields an empty result
and a bad-box report. -/
theorem claim_c8_witness :
    parse_bounds ["1", "2", "3", "4", "overrun"] =
        ([⟨1, 1⟩, ⟨2, 1⟩, ⟨3, 1⟩, ⟨4, 1⟩], [Report.excess ["overrun"]]) ∧
      ((parse_bounds ["1", "2", "x", "4"]).1 = [] ∧
        Report.badbox ∈ (parse_bounds ["1", "2", "x", "4"]).2) :=
  ⟨(claim_c8_token_handling ["1", "2", "3", "4", "overrun"]).1 (by decide),
    (claim_c8_token_handling ["1", "2", "x", "4"]).2 (by decide)⟩

/-- Erasing a fold of names from a list never re-adds an absent
element. -/
theorem notmem_foldl_erase (ts : List String) :
    ∀ (c : List String) (a : String), a ∉ c →
      a ∉ ts.foldl (fun c t => c.erase t) c := by
  induction ts with
  | nil => intro c a h; simpa using h
  | cons t ts ih =>
    intro c a h
    simp only [List.foldl_cons]
    exact ih (c.erase t) a (fun hm => h ((List.erase_sublist t c).subset hm))

/-- Every name in the erased batch is absent from the result of folding
`List.erase` over a duplicate-free list. -/
theorem target_notmem_foldl_erase (ts : List String) :
    ∀ (c : List String), c.Nodup → ∀ t ∈ ts,
      t ∉ ts.foldl (fun c t => c.erase t) c := by
  induction ts with
  | nil => intro c _ t ht; simp at ht
  | cons t0 ts ih =>
    intro c hnd t ht
    simp only [List.foldl_cons]
    rcases List.mem_cons.mp ht with rfl | hmem
    · exact notmem_foldl_erase ts (c.erase t) t hnd.not_mem_erase
    · exact ih (c.erase t0) (hnd.erase t0) t hmem

/-- C5: every target filename produced by the split plans is removed
from the cropped-marker list (even if it was marked before the run, and
whether or not it previously existed), and the crop stage then selects
exactly the `.pdf` directory entries whose names are not in the
resulting cropped-marker list. -/
theorem claim_c5_targets_uncropped (pdffiles : List String)
    (file_info : List FileRec) (cropped : List String)
    (hnd : cropped.Nodup) (listing : List String) :
    (∀ t ∈ splitTargets pdffiles file_info,
        t ∉ splitCropped pdffiles file_info cropped) ∧
      (∀ x, x ∈ cropSelect listing (splitCropped pdffiles file_info cropped) ↔
        x ∈ listing ∧ x ∉ splitCropped pdffiles file_info cropped ∧
          endsPdf x = true) := by
  constructor
  · intro t ht
    have := target_notmem_foldl_erase (splitTargets pdffiles file_info)
      cropped hnd t ht
    simpa [splitCropped] using this
  · intro x
    simp [cropSelect, List.mem_filter, and_assoc]

/-- Witness for C5: splitting `a.pdf` (2 pages) renumbers `a1.pdf`,
whose pre-existing cropped marker is removed. -/
theorem claim_c5_witness :
    "a1.pdf" ∉ splitCropped ["a.pdf", "a1.pdf"]
      [⟨"a.pdf", 2⟩, ⟨"a1.pdf", 1⟩] ["a1.pdf"] :=
  (claim_c5_targets_uncropped ["a.pdf", "a1.pdf"]
      [⟨"a.pdf", 2⟩, ⟨"a1.pdf", 1⟩] ["a1.pdf"] (by decide) []).1
    "a1.pdf" (by decide)

/-- C1: a second full pipeline run on a directory that is already fully
split (every catalogued file has one page) and fully cropped (every
file name carries the marker) changes nothing: every stem-group has
page-count sum equal to member count so the split stage skips it and
stages no file, the cropped-marker list is unchanged, and the crop
stage selects no file. -/
theorem claim_c1_idempotent (file_info : List FileRec)
    (cropped : List String) (pdffiles : List String)
    (hp : ∀ f ∈ file_info, f.pages = 1)
    (hn : pdffiles = file_info.map (fun f => f.name))
    (hc : ∀ x ∈ pdffiles, x ∈ cropped) :
    (∀ stem ∈ get_stems pdffiles,
        ((groupFor file_info pdffiles stem).map (fun f => f.pages)).sum =
          (groupFor file_info pdffiles stem).length) ∧
      splitTargets pdffiles file_info = [] ∧
      splitCropped pdffiles file_info cropped = cropped ∧
      cropSelect pdffiles (splitCropped pdffiles file_info cropped) = [] := by
  have hgroup : ∀ stem, ∀ f ∈ groupFor file_info pdffiles stem, f.pages = 1 :=
    fun stem f hf => hp f (List.mem_of_mem_filter hf)
  have h1 : ∀ stem ∈ get_stems pdffiles,
      ((groupFor file_info pdffiles stem).map (fun f => f.pages)).sum =
        (groupFor file_info pdffiles stem).length :=
    fun stem _ => pagesum_of_ones _ (hgroup stem)
  have hplan : ∀ stem, splitPlanStem (groupFor file_info pdffiles stem) = [] := by
    intro stem
    simp [splitPlanStem, pagesum_of_ones _ (hgroup stem)]
  have h2 : splitTargets pdffiles file_info = [] := by
    have hfold : ∀ stems : List String,
        stems.foldr
          (fun stem acc =>
            (splitPlanStem (groupFor file_info pdffiles stem)).map
              (fun e => targetName stem e.1) ++ acc)
          [] = [] := by
      intro stems
      induction stems with
      | nil => rfl
      | cons s t ih => simp [hplan s, ih]
    simpa [splitTargets] using hfold (get_stems pdffiles)
  have h3 : splitCropped pdffiles file_info cropped = cropped := by
    simp [splitCropped, h2]
  have h4 : cropSelect pdffiles (splitCropped pdffiles file_info cropped) = [] := by
    rw [h3]
    refine List.filter_eq_nil_iff.mpr ?_
    intro x hx
    simp [hc x hx]
  exact ⟨h1, h2, h3, h4⟩

/-- Witness for C1 on a concrete already-processed directory. -/
theorem claim_c1_witness :
    splitTargets ["c.pdf", "c1.pdf"] [⟨"c.pdf", 1⟩, ⟨"c1.pdf", 1⟩] = [] ∧
      splitCropped ["c.pdf", "c1.pdf"] [⟨"c.pdf", 1⟩, ⟨"c1.pdf", 1⟩]
        ["c.pdf", "c1.pdf"] = ["c.pdf", "c1.pdf"] ∧
      cropSelect ["c.pdf", "c1.pdf"]
        (splitCropped ["c.pdf", "c1.pdf"] [⟨"c.pdf", 1⟩, ⟨"c1.pdf", 1⟩]
          ["c.pdf", "c1.pdf"]) = [] :=
  let h := claim_c1_idempotent [⟨"c.pdf", 1⟩, ⟨"c1.pdf", 1⟩]
    ["c.pdf", "c1.pdf"] ["c.pdf", "c1.pdf"] (by decide) (by rfl) (by decide)
  ⟨h.2.1, h.2.2.1, h.2.2.2⟩

/-!
## Classification correctness (claim C6)

The pattern `([\w_\d]+?)(\d+)\.pdf` is analysed on names of the shape
`w ++ d ++ ".pdf"` with `w` nonempty word characters and `d` nonempty
digits.  Such a name contains exactly one dot, so any successful
`(\d+)\.pdf` attempt inside it must end exactly at the final `.pdf`;
the valid split points therefore form a contiguous trailing range, and
`w` is the *shortest* leading run exactly when `w` has length one or
its last character is not a digit.  That decidable condition is the
minimality hypothesis used below.
-/

/-- Taking digits from `d ++ ".pdf"` with `d` all digits stops exactly
at the dot. -/
theorem tw_digits (d : List Char) (hd : ∀ c ∈ d, c.isDigit = true) :
    (d ++ pdfext).takeWhile Char.isDigit = d ∧
      (d ++ pdfext).dropWhile Char.isDigit = pdfext := by
  induction d with
  | nil => exact ⟨rfl, rfl⟩
  | cons c t ih =>
    have hc : c.isDigit = true := hd c (List.mem_cons_self _ _)
    have iht := ih (fun x hx => hd x (List.mem_cons_of_mem _ hx))
    refine ⟨?_, ?_⟩ <;>
      simp [List.takeWhile_cons, List.dropWhile_cons, hc, iht.1, iht.2]

/-- The digit span of `w2 ++ d ++ ".pdf"` (word characters `w2`, digits
`d`): either `w2` is all digits and the span is everything before the
dot, or the drop lands on a non-digit word character of `w2`. -/
theorem twdw (w2 d : List Char) (hw : ∀ c ∈ w2, isWordChar c = true)
    (hd : ∀ c ∈ d, c.isDigit = true) :
    ((∀ c ∈ w2, c.isDigit = true) ∧
        (w2 ++ (d ++ pdfext)).takeWhile Char.isDigit = w2 ++ d ∧
        (w2 ++ (d ++ pdfext)).dropWhile Char.isDigit = pdfext) ∨
      ((¬ ∀ c ∈ w2, c.isDigit = true) ∧
        ∃ c r, c.isDigit = false ∧ isWordChar c = true ∧
          (w2 ++ (d ++ pdfext)).dropWhile Char.isDigit = c :: r) := by
  induction w2 with
  | nil =>
    left
    refine ⟨fun c hc => absurd hc (List.not_mem_nil c), ?_, ?_⟩
    · simpa using (tw_digits d hd).1
    · simpa using (tw_digits d hd).2
  | cons c t ih =>
    have hcw : isWordChar c = true := hw c (List.mem_cons_self _ _)
    have iht := ih (fun x hx => hw x (List.mem_cons_of_mem _ hx))
    by_cases hc : c.isDigit = true
    · rcases iht with ⟨hall, htw, hdw⟩ | ⟨hnall, c2, r, hc2, hc2w, hdw⟩
      · left
        refine ⟨?_, ?_, ?_⟩
        · intro x hx
          rcases List.mem_cons.mp hx with rfl | hx
          · exact hc
          · exact hall x hx
        · simp [List.takeWhile_cons, hc, htw]
        · simp [List.dropWhile_cons, hc, hdw]
      · right
        refine ⟨?_, c2, r, hc2, hc2w, ?_⟩
        · intro hall
          exact hnall (fun x hx => hall x (List.mem_cons_of_mem _ hx))
        · simp [List.dropWhile_cons, hc, hdw]
    · right
      have hcf : c.isDigit = false := by
        cases hcd : c.isDigit with
        | false => rfl
        | true => exact absurd hcd hc
      refine ⟨?_, c, t ++ (d ++ pdfext), hcf, hcw, ?_⟩
      · intro hall
        exact hc (hall c (List.mem_cons_self _ _))
      · simp [List.dropWhile_cons, hcf]

/-- `(\d+)\.pdf` succeeds at the head of an all-digit run before the
dot, returning the whole run. -/
theorem matchTail_of_digits (d : List Char) (hd : ∀ c ∈ d, c.isDigit = true)
    (hne : d ≠ []) : matchTail (d ++ pdfext) = some d := by
  obtain ⟨htw, hdw⟩ := tw_digits d hd
  have hie : d.isEmpty = false := by
    cases d with
    | nil => exact absurd rfl hne
    | cons _ _ => rfl
  simp [matchTail, htw, hdw, hie]

/-- `(\d+)\.pdf` fails at the head of `w2 ++ d ++ ".pdf"` whenever `w2`
contains a non-digit: the digit span stops on a word character that is
not the dot. -/
theorem matchTail_mixed (w2 d : List Char)
    (hw : ∀ c ∈ w2, isWordChar c = true) (hd : ∀ c ∈ d, c.isDigit = true)
    (hnall : ¬ ∀ c ∈ w2, c.isDigit = true) :
    matchTail (w2 ++ (d ++ pdfext)) = none := by
  rcases twdw w2 d hw hd with ⟨hall, _, _⟩ | ⟨_, c, r, hcd, hcw, hdw⟩
  · exact absurd hall hnall
  · have hcne : (('.' : Char) == c) = false := by
      refine beq_eq_false_iff_ne.mpr ?_
      intro he
      rw [← he] at hcw
      exact absurd hcw (by decide)
    have hpre : pdfext.isPrefixOf (c :: r) = false := by
      simp [pdfext, List.isPrefixOf, hcne]
    cases hie : ((w2 ++ (d ++ pdfext)).takeWhile Char.isDigit).isEmpty <;>
      simp [matchTail, hie, hdw, hpre]

/-- The terminal element survives prepending. -/
theorem getLast?_cons_of_getLast? {α : Type} (c : α) (t : List α) (x : α)
    (hx : t.getLast? = some x) : (c :: t).getLast? = some x := by
  cases t with
  | nil => simp at hx
  | cons y ys =>
    rw [show c :: y :: ys = [c] ++ (y :: ys) from rfl, List.getLast?_append, hx]
    rfl

/-- Lazy group-1 expansion over `w = w1 ++ w2` reaches exactly the end
of `w` when `w` is a minimal valid stem: every proper extension point
inside `w2` fails the `(\d+)\.pdf` attempt, and at the end of `w` the
attempt succeeds on `d`. -/
theorem loop_reach (w d : List Char) (hw : ∀ c ∈ w, isWordChar c = true)
    (hd : ∀ c ∈ d, c.isDigit = true) (hdne : d ≠ [])
    (hmin : w.length = 1 ∨ ∀ c, w.getLast? = some c → c.isDigit = false) :
    ∀ w2 w1, w = w1 ++ w2 → w1 ≠ [] →
      matchG1Loop w1 (w2 ++ (d ++ pdfext)) = some (w, digitsToNat d) := by
  intro w2
  induction w2 with
  | nil =>
    intro w1 heq hne
    cases d with
    | nil => exact absurd rfl hdne
    | cons e es =>
      have hmt : matchTail (e :: (es ++ pdfext)) = some (e :: es) := by
        simpa using matchTail_of_digits (e :: es) hd (by simp)
      rw [List.append_nil] at heq
      simp [matchG1Loop, hmt, heq]
  | cons c t ih =>
    intro w1 heq hne
    have hmem : ∀ x ∈ c :: t, x ∈ w := by
      intro x hx
      rw [heq]
      exact List.mem_append_right _ hx
    have hcw : isWordChar c = true := hw c (hmem c (List.mem_cons_self _ _))
    by_cases hall : ∀ x ∈ c :: t, x.isDigit = true
    · exfalso
      have hw1 : 1 ≤ w1.length := by
        cases w1 with
        | nil => exact absurd rfl hne
        | cons _ _ => simp
      have hlen : 2 ≤ w.length := by
        rw [heq]
        simp only [List.length_append, List.length_cons]
        omega
      obtain hx := List.getLast?_eq_getLast (c :: t) (by simp)
      set x := (c :: t).getLast (by simp) with hxdef
      have hxd : x.isDigit = true := hall x (List.getLast_mem _)
      have hwlast : w.getLast? = some x := by
        rw [heq, List.getLast?_append, hx]
        rfl
      rcases hmin with h1 | h2
      · omega
      · rw [h2 x hwlast] at hxd
        exact Bool.false_ne_true hxd
    · have hmt : matchTail (c :: (t ++ (d ++ pdfext))) = none := by
        simpa using
          matchTail_mixed (c :: t) d (fun x hx => hw x (hmem x hx)) hd hall
      have step : matchG1Loop w1 ((c :: t) ++ (d ++ pdfext)) =
          matchG1Loop (w1 ++ [c]) (t ++ (d ++ pdfext)) := by
        simp [matchG1Loop, hmt, hcw]
      rw [step]
      exact ih (w1 ++ [c]) (by rw [heq, List.append_cons]) (by simp)

/-- At position 0 of a minimal-stem name the pattern matches with
exactly `(w, int(d))`. -/
theorem matchStart_min (w d : List Char) (hw : ∀ c ∈ w, isWordChar c = true)
    (hd : ∀ c ∈ d, c.isDigit = true) (hwne : w ≠ []) (hdne : d ≠ [])
    (hmin : w.length = 1 ∨ ∀ c, w.getLast? = some c → c.isDigit = false) :
    matchStart (w ++ (d ++ pdfext)) = some (w, digitsToNat d) := by
  cases w with
  | nil => exact absurd rfl hwne
  | cons c w2 =>
    have hcw : isWordChar c = true := hw c (List.mem_cons_self _ _)
    have hloop := loop_reach (c :: w2) d hw hd hdne hmin w2 [c] rfl (by simp)
    simpa [matchStart, hcw] using hloop

/-- `re.search` on a minimal-stem name returns `(w, int(d))`: the match
at position 0 wins. -/
theorem reSearch_min (w d : List Char) (hw : ∀ c ∈ w, isWordChar c = true)
    (hd : ∀ c ∈ d, c.isDigit = true) (hwne : w ≠ []) (hdne : d ≠ [])
    (hmin : w.length = 1 ∨ ∀ c, w.getLast? = some c → c.isDigit = false) :
    reSearch (w ++ (d ++ pdfext)) = some (w, digitsToNat d) := by
  have hms := matchStart_min w d hw hd hwne hdne hmin
  cases w with
  | nil => exact absurd rfl hwne
  | cons c w2 =>
    simp only [List.cons_append] at hms ⊢
    simp [reSearch, hms]

/-- Lazy group-1 expansion fails everywhere inside `w2 ++ ".pdf"` when
`w2` is word characters whose last character is not a digit: no digit
run is ever followed by the dot. -/
theorem loop_fail (w2 : List Char) :
    ∀ g1, (∀ c ∈ w2, isWordChar c = true) →
      (∀ c, w2.getLast? = some c → c.isDigit = false) →
      matchG1Loop g1 (w2 ++ pdfext) = none := by
  induction w2 with
  | nil => intro g1 _ _; rfl
  | cons c t ih =>
    intro g1 hw hlast
    have hcw : isWordChar c = true := hw c (List.mem_cons_self _ _)
    have hlast2 : ∀ x, t.getLast? = some x → x.isDigit = false :=
      fun x hx => hlast x (getLast?_cons_of_getLast? c t x hx)
    have hnall : ¬ ∀ x ∈ c :: t, x.isDigit = true := by
      intro hall
      obtain hx := List.getLast?_eq_getLast (c :: t) (by simp)
      have hxd := hall _ (List.getLast_mem (l := c :: t) (by simp))
      rw [hlast _ hx] at hxd
      exact Bool.false_ne_true hxd
    have hmt : matchTail (c :: (t ++ pdfext)) = none := by
      simpa using
        matchTail_mixed (c :: t) [] hw (by simp) hnall
    have step : matchG1Loop g1 ((c :: t) ++ pdfext) =
        matchG1Loop (g1 ++ [c]) (t ++ pdfext) := by
      simp [matchG1Loop, hmt, hcw]
    rw [step]
    exact ih (g1 ++ [c]) (fun x hx => hw x (List.mem_cons_of_mem _ hx)) hlast2

/-- `re.search` finds no match in `w ++ ".pdf"` when `w` is word
characters not ending in a digit: every start position fails. -/
theorem search_fail (w : List Char) :
    (∀ c ∈ w, isWordChar c = true) →
    (∀ c, w.getLast? = some c → c.isDigit = false) →
    reSearch (w ++ pdfext) = none := by
  induction w with
  | nil => intro _ _; decide
  | cons c t ih =>
    intro hw hlast
    have hcw : isWordChar c = true := hw c (List.mem_cons_self _ _)
    have hw2 : ∀ x ∈ t, isWordChar x = true :=
      fun x hx => hw x (List.mem_cons_of_mem _ hx)
    have hlast2 : ∀ x, t.getLast? = some x → x.isDigit = false :=
      fun x hx => hlast x (getLast?_cons_of_getLast? c t x hx)
    have hloop : matchG1Loop [c] (t ++ pdfext) = none := loop_fail t [c] hw2 hlast2
    have hrec : reSearch (t ++ pdfext) = none := ih hw2 hlast2
    simp [reSearch, matchStart, hcw, hloop, hrec]

/-- Minimality of the stem: if `w ++ d ++ ".pdf"` also decomposes as
`w2 ++ d2 ++ ".pdf"` with `w2` nonempty and `d2` digits, and `w` has
length one or does not end in a digit, then `w` is no longer than
`w2` — `w` is the shortest leading run whose remainder is all digits
followed by `.pdf`. -/
theorem min_split (w d w2 d2 : List Char)
    (hmin : w.length = 1 ∨ ∀ c, w.getLast? = some c → c.isDigit = false)
    (heq : w ++ (d ++ pdfext) = w2 ++ (d2 ++ pdfext))
    (hw2ne : w2 ≠ []) (hd2 : ∀ c ∈ d2, c.isDigit = true) :
    w.length ≤ w2.length := by
  by_contra hlt
  push_neg at hlt
  have htake : w.take w2.length = w2 := by
    have h := congrArg (List.take w2.length) heq
    rwa [List.take_append_of_le_length (Nat.le_of_lt hlt),
      List.take_append_of_le_length (Nat.le_refl _), List.take_length] at h
  set u := w.drop w2.length with hudef
  have hu : w = w2 ++ u := by
    conv_lhs => rw [← List.take_append_drop w2.length w]
    rw [htake]
  have hulen : u.length = w.length - w2.length := List.length_drop _ _
  have hune : u ≠ [] := by
    intro h0
    rw [h0] at hulen
    simp at hulen
    omega
  have hdrop : u ++ (d ++ pdfext) = d2 ++ pdfext := by
    have h := congrArg (List.drop w2.length) heq
    rwa [List.drop_append_of_le_length (Nat.le_of_lt hlt), List.drop_left] at h
  have hlen2 : u.length + d.length = d2.length := by
    have h := congrArg List.length hdrop
    simp [List.length_append] at h
    omega
  have hlen3 : (u ++ d).length = d2.length := by
    simpa using hlen2
  have hud : u ++ d = d2 :=
    calc u ++ d = List.take (u ++ d).length ((u ++ d) ++ pdfext) :=
          (List.take_left _ _).symm
      _ = List.take d2.length (u ++ (d ++ pdfext)) := by
          rw [hlen3, List.append_assoc]
      _ = List.take d2.length (d2 ++ pdfext) := by rw [hdrop]
      _ = d2 := List.take_left _ _
  have hudig : ∀ c ∈ u, c.isDigit = true := by
    intro c hc
    refine hd2 c ?_
    rw [← hud]
    exact List.mem_append_left _ hc
  obtain hx := List.getLast?_eq_getLast u hune
  have hxd : (u.getLast hune).isDigit = true :=
    hudig _ (List.getLast_mem hune)
  have hwlast : w.getLast? = some (u.getLast hune) := by
    rw [hu, List.getLast?_append, hx]
    rfl
  have hw2len : 1 ≤ w2.length := List.length_pos.mpr hw2ne
  have hwlen : w.length = w2.length + u.length := by
    rw [hu]
    simp
  rcases hmin with h1 | h2
  · have : 1 ≤ u.length := List.length_pos.mpr hune
    omega
  · rw [h2 _ hwlast] at hxd
    exact Bool.false_ne_true hxd

/-- `String.mk` and `String.toList` are inverse on the character
list. -/
theorem toList_mk (l : List Char) : (String.mk l).toList = l := rfl

/-- `os.path.splitext` on `w ++ ".pdf"` with `w` nonempty word
characters drops exactly the `.pdf` extension. -/
theorem splitextRoot_word_pdf (w : List Char) (hwne : w ≠ [])
    (hw : ∀ c ∈ w, isWordChar c = true) :
    splitextRoot (String.mk (w ++ pdfext)) = String.mk w := by
  have hrev : (String.mk (w ++ pdfext)).toList.reverse =
      'f' :: 'd' :: 'p' :: '.' :: w.reverse := by
    rw [toList_mk]
    simp [pdfext, List.reverse_append]
  have hspan :
      ((('f' :: 'd' :: 'p' :: '.' :: w.reverse).span (fun c => c ≠ '.')).2) =
        '.' :: w.reverse := rfl
  obtain ⟨c0, t0, rfl⟩ : ∃ c0 t0, w = c0 :: t0 := by
    cases w with
    | nil => exact absurd rfl hwne
    | cons a b => exact ⟨a, b, rfl⟩
  have hany : ((c0 :: t0).reverse.any (fun c => decide (c ≠ '.'))) = true := by
    refine List.any_eq_true.mpr ⟨c0, ?_, ?_⟩
    · exact List.mem_reverse.mpr (List.mem_cons_self _ _)
    · have hcw := hw c0 (List.mem_cons_self _ _)
      simp only [decide_eq_true_eq]
      intro he
      rw [he] at hcw
      exact absurd hcw (by decide)
  simp only [splitextRoot, hrev, hspan, hany, if_true]
  rw [List.reverse_reverse]

/-- C6 counterexample: the no-trailing-digits half of the claim is
false of the program as stated over *every* filename.  The name
`v2.pdf_final.pdf` has no trailing digits before its final `.pdf`
(the character before it is `l`), so the claim asserts ordinal 0 and
stem `v2.pdf_final` (the name minus its extension) — but `re.search`
is unanchored and matches the internal `2.pdf` occurrence (lazy group
1 `v`, digits `2`), so the classifier yields ordinal 2 and stem
`v`. -/
theorem claim_c6_counterexample :
    get_filedigit ⟨"v2.pdf_final.pdf", 1⟩ = 2 ∧
      stemOf "v2.pdf_final.pdf" = "v" ∧
      splitextRoot "v2.pdf_final.pdf" = "v2.pdf_final" ∧
      (2 : Nat) ≠ 0 ∧ ("v" : String) ≠ "v2.pdf_final" := by
  refine ⟨by decide, by decide, by decide, by decide, by decide⟩

/-- C6 amended: the classifier recovers stem and ordinal exactly on
names of the documented convention.  For a name `w ++ d ++ ".pdf"`
(`w` nonempty word characters, `d` nonempty digits) in which `w` is
minimal — it has length one or does not end in a digit, which for
names of this shape characterises the shortest leading run whose
remainder is all digits followed by `.pdf` (third conjunct) — the
stem is `w` and the ordinal is `int(d)`.  For a name `w ++ ".pdf"`
whose word-character base `w` does not end in a digit (no trailing
digits), the ordinal is 0 and the stem is the name minus its
extension, which equals `w`.  The word-character restriction on the
base is necessary: the unanchored search still matches an internal
`<digits>.pdf` occurrence in names such as `v2.pdf_final.pdf` (see
the counterexample), so the fallback does not hold for arbitrary
names without trailing digits. -/
theorem claim_c6_classification :
    (∀ (w d : List Char), w ≠ [] → (∀ c ∈ w, isWordChar c = true) →
      d ≠ [] → (∀ c ∈ d, c.isDigit = true) →
      (w.length = 1 ∨ ∀ c ∈ w.getLast?.toList, c.isDigit = false) →
      stemOf (String.mk (w ++ (d ++ pdfext))) = String.mk w ∧
        get_filedigit ⟨String.mk (w ++ (d ++ pdfext)), 1⟩ = digitsToNat d ∧
        (∀ w2 d2, w ++ (d ++ pdfext) = w2 ++ (d2 ++ pdfext) → w2 ≠ [] →
          (∀ c ∈ d2, c.isDigit = true) → w.length ≤ w2.length)) ∧
    (∀ (w : List Char), w ≠ [] → (∀ c ∈ w, isWordChar c = true) →
      (∀ c ∈ w.getLast?.toList, c.isDigit = false) →
      get_filedigit ⟨String.mk (w ++ pdfext), 1⟩ = 0 ∧
        stemOf (String.mk (w ++ pdfext)) =
          splitextRoot (String.mk (w ++ pdfext)) ∧
        splitextRoot (String.mk (w ++ pdfext)) = String.mk w) := by
  constructor
  · intro w d hwne hw hdne hd hmin
    have hmin2 : w.length = 1 ∨ ∀ c, w.getLast? = some c → c.isDigit = false := by
      rcases hmin with h | h
      · exact Or.inl h
      · refine Or.inr fun c hc => h c ?_
        rw [hc]
        exact List.mem_cons_self _ _
    have hs := reSearch_min w d hw hd hwne hdne hmin2
    refine ⟨?_, ?_, ?_⟩
    · simp [stemOf, toList_mk, hs]
    · simp [get_filedigit, filedigitOf, toList_mk, hs]
    · exact fun w2 d2 heq hne2 hd2 => min_split w d w2 d2 hmin2 heq hne2 hd2
  · intro w hwne hw hlast
    have hlast2 : ∀ c, w.getLast? = some c → c.isDigit = false := by
      refine fun c hc => hlast c ?_
      rw [hc]
      exact List.mem_cons_self _ _
    have hs := search_fail w hw hlast2
    refine ⟨?_, ?_, ?_⟩
    · simp [get_filedigit, filedigitOf, toList_mk, hs]
    · simp [stemOf, toList_mk, hs]
    · exact splitextRoot_word_pdf w hwne hw

/-- Witness for C6 on the names `one12.pdf` and `two.pdf`. -/
theorem claim_c6_witness :
    stemOf (String.mk (['o', 'n', 'e'] ++ (['1', '2'] ++ pdfext))) =
        String.mk ['o', 'n', 'e'] ∧
      get_filedigit ⟨String.mk (['o', 'n', 'e'] ++ (['1', '2'] ++ pdfext)), 1⟩ =
        digitsToNat ['1', '2'] ∧
      get_filedigit ⟨String.mk (['t', 'w', 'o'] ++ pdfext), 1⟩ = 0 ∧
      splitextRoot (String.mk (['t', 'w', 'o'] ++ pdfext)) =
        String.mk ['t', 'w', 'o'] :=
  let hA := claim_c6_classification.1 ['o', 'n', 'e'] ['1', '2']
    (by decide) (by decide) (by decide) (by decide) (by decide)
  let hB := claim_c6_classification.2 ['t', 'w', 'o']
    (by decide) (by decide) (by decide)
  ⟨hA.1, hA.2.1, hB.1, hB.2.2⟩
